import Mathlib

/-!
Shallow embedding of `mdast-util-gfm-autolink-literal-lemmy` (src/lib/index.js).
Strings are represented as `List Char`; JS regular-expression fragments are
translated into explicit character predicates and list operations.
-/

namespace Autolink

/-- The word-character class of JS regex `\w`, i.e. `[A-Za-z0-9_]`. -/
def wordChar (c : Char) : Bool :=
  c.isAlphanum || c = '_'

/-- Modelled from the spec: the external character classifier
`unicodeWhitespace` (micromark-util-character), "Unicode whitespace" per JS
regex `\s`.  Exact on the characters that classifier recognizes. -/
def unicodeWhitespace (c : Char) : Bool :=
  let n := c.toNat
  n = 9 || n = 10 || n = 11 || n = 12 || n = 13 || n = 32 ||
  n = 0xA0 || n = 0x1680 || (0x2000 ≤ n && n ≤ 0x200A) ||
  n = 0x2028 || n = 0x2029 || n = 0x202F || n = 0x205F || n = 0x3000 || n = 0xFEFF

/-- Modelled from the spec: the external character classifier
`unicodePunctuation` (micromark-util-character), "Unicode punctuation".
Exact on ASCII (the four ASCII punctuation/symbol ranges); this model
returns `false` for non-ASCII code points. -/
def unicodePunctuation (c : Char) : Bool :=
  let n := c.toNat
  (33 ≤ n && n ≤ 47) || (58 ≤ n && n ≤ 64) || (91 ≤ n && n ≤ 96) || (123 ≤ n && n ≤ 126)

/-- mdast nodes, restricted to the shapes this extension produces:
text nodes with a `value`, and link nodes with `url`, `title`, `children`. -/
inductive Node where
  | text : List Char → Node
  | link : List Char → Option (List Char) → List Node → Node

/-- Result of a `ReplaceFunction`: JS `Array<PhrasingContent> | Link | false`. -/
inductive FindResult where
  | noMatch : FindResult
  | node : Node → FindResult
  | nodes : List Node → FindResult

/-- The link node carried by a handler result, if any (the first node of an
array result). -/
def linkOf : FindResult → Option Node
  | .noMatch => none
  | .node n => some n
  | .nodes l => l.head?

/-- Embedding of `previous(match, email)` (src/lib/index.js).  `code` is the
character just before the match (`match.input.charCodeAt(match.index - 1)`,
`none` standing for the JS `NaN` produced by an out-of-range access). -/
def previous (input : List Char) (index : Nat) (email : Bool) : Bool :=
  let code : Option Char := if index = 0 then none else input[index - 1]?
  ((index == 0) ||
    (match code with
     | some c => unicodeWhitespace c || unicodePunctuation c
     | none => false)) &&
  (!email || code != some '/')

/-- JS regex test `/[-\d_]$/.test(label)`: the label ends in `-`, a digit
or `_`. -/
def endsBad (label : List Char) : Bool :=
  match label.getLast? with
  | some c => c = '-' || c.isDigit || c = '_'
  | none => false

/-- JS `String.prototype.split('.')` on a character list. -/
def splitOnDot : List Char → List (List Char)
  | [] => [[]]
  | c :: rest =>
    match splitOnDot rest with
    | [] => [[c]]
    | h :: t => if c = '.' then [] :: h :: t else (c :: h) :: t

/-- Embedding of `isCorrectDomain(domain)` (src/lib/index.js).
`parts[parts.length-1]` and `parts[parts.length-2]` are modelled with
`getD`; when `parts.length < 2` the result is already decided by the first
disjunct, so the out-of-range JS `undefined` (falsy) and the `getD` default
(empty list, whose truthiness guard fails) agree. -/
def isCorrectDomain (domain : List Char) : Bool :=
  let parts := splitOnDot domain
  let last1 := parts.getD (parts.length - 1) []
  let last2 := parts.getD (parts.length - 2) []
  !(decide (parts.length < 2) || parts.any List.isEmpty ||
    (!last1.isEmpty && (last1.contains '_' || !last1.any Char.isAlphanum)) ||
    (!last2.isEmpty && (last2.contains '_' || !last2.any Char.isAlphanum)))

/-- The closing-punctuation class of `splitUrl`: JS regex `[!"&'),.:;<>?\]}]`. -/
def trailingPunct (c : Char) : Bool :=
  ['!', '"', '&', '\'', ')', ',', '.', ':', ';', '<', '>', '?', ']', '\x7d'].contains c

/-- The `while` loop of `splitUrl` (src/lib/index.js:373-378).  JS
`trail.indexOf(')')`/`slice` are modelled with `takeWhile`/`dropWhile` at the
first `')'`; the loop condition `closingParenIndex !== -1` is `')' ∈ trail`.
`fuel` bounds the iteration count; `splitUrl` passes `trail.length`, which is
sufficient because every iteration strictly shrinks `trail` (proved below),
so the fuel never runs out while the loop condition still holds. -/
def rebalanceLoop : Nat → List Char → List Char → Nat → Nat → List Char × List Char
  | 0, url, trail, _, _ => (url, trail)
  | fuel + 1, url, trail, openingParens, closingParens =>
    if (')' ∈ trail) ∧ closingParens < openingParens then
      rebalanceLoop fuel (url ++ trail.takeWhile (· != ')') ++ [')'])
        ((trail.dropWhile (· != ')')).tail) openingParens (closingParens + 1)
    else (url, trail)

/-- Embedding of `splitUrl(url)` (src/lib/index.js).  The JS regex
`/[!"&'),.:;<>?\]}]+$/` finds the maximal trailing run of closing
punctuation, modelled by `takeWhile`/`dropWhile` on the reversed list. -/
def splitUrl (url : List Char) : List Char × Option (List Char) :=
  let trailRev := url.reverse.takeWhile trailingPunct
  if trailRev.isEmpty then (url, none)
  else
    let trail := trailRev.reverse
    let url2 := (url.reverse.dropWhile trailingPunct).reverse
    let r := rebalanceLoop trail.length url2 trail (url2.count '(') (url2.count ')')
    (r.1, some r.2)

/-- JS regex test `/^w/i.test(protocol)`. -/
def startsWithW : List Char → Bool
  | c :: _ => c = 'w' || c = 'W'
  | [] => false

/-- Embedding of `findUrl(_, protocol, domain, path, match)`
(src/lib/index.js).  The JS reassignments `domain = protocol + domain;
protocol = ''; prefix = 'http://'` in the `www` branch are modelled by the
three `if www` lets. -/
def findUrl (protocol domain path input : List Char) (index : Nat) : FindResult :=
  if !(previous input index false) then .noMatch
  else
    let www := startsWithW protocol
    let protocol2 := if www then [] else protocol
    let domain2 := if www then protocol ++ domain else domain
    let prefix2 := if www then ("http://".toList) else []
    if !(isCorrectDomain domain2) then .noMatch
    else
      let parts := splitUrl (domain2 ++ path)
      if parts.1.isEmpty then .noMatch
      else
        let result := Node.link (prefix2 ++ protocol2 ++ parts.1) none
          [Node.text (protocol2 ++ parts.1)]
        match parts.2 with
        | some t => if !t.isEmpty then FindResult.nodes [result, Node.text t]
                    else FindResult.node result
        | none => FindResult.node result

/-- Embedding of the `findCommunity` closure built by
`buildFindCommunity(connectedInstance, prefix)` (src/lib/index.js).  The
closure parameters are passed explicitly (`pre` is the literal prefix,
`"!"` or `"/c/"`). -/
def findCommunity (connectedInstance pre atext label input : List Char)
    (index : Nat) : FindResult :=
  if !(previous input index true) || endsBad label then .noMatch
  else
    let communityName := atext.drop pre.length
    .node (Node.link
      (("https://".toList) ++ connectedInstance ++ ("/c/".toList) ++
        communityName ++ '@' :: label)
      none
      [Node.text (pre ++ communityName ++ '@' :: label)])

/-- Embedding of the `findUser` closure built by
`buildFindUser(connectedInstance, prefix)` (src/lib/index.js). -/
def findUser (connectedInstance pre atext label input : List Char)
    (index : Nat) : FindResult :=
  if !(previous input index true) || endsBad label then .noMatch
  else
    let userName := atext.drop pre.length
    .node (Node.link
      (("https://".toList) ++ connectedInstance ++ ("/u/".toList) ++
        userName ++ '@' :: label)
      none
      [Node.text (pre ++ userName ++ '@' :: label)])

/-- Embedding of `findEmail(_, atext, label, match)` (src/lib/index.js).
After the boundary/label checks it rejects when the character before the
whole match is `!` (code 33) or `@` (code 64). -/
def findEmail (atext label input : List Char) (index : Nat) : FindResult :=
  if !(previous input index true) || endsBad label then .noMatch
  else
    let code : Option Char := if index = 0 then none else input[index - 1]?
    if code = some '!' ∨ code = some '@' then .noMatch
    else
      .node (Node.link (("mailto:".toList) ++ atext ++ '@' :: label) none
        [Node.text (atext ++ '@' :: label)])

/-- The six pattern kinds of the `findAndReplace` table in
`transformGfmAutolinkLiterals` (src/lib/index.js:166-171). -/
inductive PatternKind where
  | url | communityShebang | communityRelative | user | userRelative | email
deriving BEq, DecidableEq

/-- The pattern table, in source order (src/lib/index.js:166-171):
most specific mention shapes before the generic email pattern. -/
def patternTable : List PatternKind :=
  [.url, .communityShebang, .communityRelative, .user, .userRelative, .email]

/-- An `unsafe` entry of the `mdast-util-to-markdown` extension: a character
that must be escaped, with lookbehind/lookahead character-class regex
sources and the constructs in which the rule applies. -/
structure EscapeRule where
  character : Char
  before : String
  after : String
  inConstruct : String
  notInConstruct : List String
deriving DecidableEq

/-- Constant `inConstruct` (src/lib/index.js:23). -/
def inConstructVal : String := "phrasing"

/-- Constant `notInConstruct` (src/lib/index.js:25). -/
def notInConstructVal : List String := ["autolink", "link", "image", "label"]

/-- Embedding of `gfmAutolinkLiteralToMarkdown()` (src/lib/index.js:71-97):
the three escape rules, with the regex sources copied verbatim. -/
def gfmAutolinkLiteralToMarkdown : List EscapeRule :=
  [ { character := '@', before := "[+\\-.\\w]", after := "[\\-.\\w]",
      inConstruct := inConstructVal, notInConstruct := notInConstructVal },
    { character := '.', before := "[Ww]", after := "[\\-.\\w]",
      inConstruct := inConstructVal, notInConstruct := notInConstructVal },
    { character := ':', before := "[ps]", after := "\\/",
      inConstruct := inConstructVal, notInConstruct := notInConstructVal } ]

/-- Interpreter for the body of a regex character class: literals, escaped
literals such as `\-` and `\/`, and the `\w` word class. -/
def classItemsMatch : List Char → Char → Bool
  | [], _ => false
  | '\\' :: 'w' :: rest, c => wordChar c || classItemsMatch rest c
  | '\\' :: x :: rest, c => c = x || classItemsMatch rest c
  | x :: rest, c => c = x || classItemsMatch rest c

/-- Interpreter for the single-character-lookaround regex sources used by
the escape rules: either a bracketed character class or a bare (escaped)
literal. -/
def regexClassMatch (s : String) (c : Char) : Bool :=
  match s.toList with
  | '[' :: rest => classItemsMatch rest.dropLast c
  | l => classItemsMatch l c

/-- The kept part of `s` before the rebalancing loop of `splitUrl` runs:
`s` with its maximal trailing run of closing punctuation removed. -/
def preKept (s : List Char) : List Char :=
  (s.reverse.dropWhile trailingPunct).reverse

/-- A list containing a `')'` splits at its first `')'`. -/
theorem dropWhile_paren_cons (l : List Char) (h : ')' ∈ l) :
    l.dropWhile (· != ')') = ')' :: (l.dropWhile (· != ')')).tail := by
  induction l with
  | nil => cases h
  | cons x xs ih =>
    by_cases hx : x = ')'
    · subst hx
      simp [List.dropWhile_cons]
    · have hmem : ')' ∈ xs := by
        cases h with
        | head => exact absurd rfl hx
        | tail _ h => exact h
      have hpx : (x != ')') = true := by simp [hx]
      simp only [List.dropWhile_cons, hpx, if_true]
      exact ih hmem

/-- Each iteration of the rebalancing loop strictly shrinks the trail. -/
theorem rebalance_shrinks (trail : List Char) (h : ')' ∈ trail) :
    ((trail.dropWhile (· != ')')).tail).length < trail.length := by
  have hsplit := List.takeWhile_append_dropWhile (p := (· != ')')) (l := trail)
  have hcons := dropWhile_paren_cons trail h
  have hlen : trail.length =
      (trail.takeWhile (· != ')') ++ trail.dropWhile (· != ')')).length :=
    (congrArg List.length hsplit).symm
  rw [List.length_append, hcons, List.length_cons] at hlen
  omega

/-- The rebalancing loop only moves characters between its two components. -/
theorem rebalance_append (fuel : Nat) :
    ∀ (url trail : List Char) (o c : Nat),
      (rebalanceLoop fuel url trail o c).1 ++ (rebalanceLoop fuel url trail o c).2 =
        url ++ trail := by
  induction fuel with
  | zero => intro url trail o c; rfl
  | succ fuel ih =>
    intro url trail o c
    by_cases h : (')' ∈ trail) ∧ c < o
    · simp only [rebalanceLoop, if_pos h]
      rw [ih]
      have hcons := dropWhile_paren_cons trail h.1
      conv_rhs => rw [← List.takeWhile_append_dropWhile (p := (· != ')')) (l := trail), hcons]
      simp [List.append_assoc]
    · simp only [rebalanceLoop, if_neg h]

/-- Characters of the loop's final trail come from the initial trail. -/
theorem rebalance_trail_mem (fuel : Nat) :
    ∀ (url trail : List Char) (o c : Nat) (x : Char),
      x ∈ (rebalanceLoop fuel url trail o c).2 → x ∈ trail := by
  induction fuel with
  | zero => intro url trail o c x hx; exact hx
  | succ fuel ih =>
    intro url trail o c x hx
    by_cases h : (')' ∈ trail) ∧ c < o
    · simp only [rebalanceLoop, if_pos h] at hx
      have h1 := ih _ _ _ _ _ hx
      have h2 : x ∈ trail.dropWhile (· != ')') := (List.tail_sublist _).subset h1
      exact (List.dropWhile_sublist _).subset h2
    · simp only [rebalanceLoop, if_neg h] at hx
      exact hx

/-- The loop's counters track the paren counts of its url component, and the
invariant that `')'`-count stays at most `'('`-count is preserved. -/
theorem rebalance_counts (fuel : Nat) :
    ∀ (url trail : List Char) (o c : Nat),
      c = url.count ')' → o = url.count '(' → c ≤ o → '(' ∉ trail →
      (rebalanceLoop fuel url trail o c).1.count ')' ≤
        (rebalanceLoop fuel url trail o c).1.count '(' := by
  induction fuel with
  | zero => intro url trail o c h1 h2 h3 _; simpa [rebalanceLoop, ← h1, ← h2] using h3
  | succ fuel ih =>
    intro url trail o c h1 h2 h3 h4
    by_cases h : (')' ∈ trail) ∧ c < o
    · simp only [rebalanceLoop, if_pos h]
      have htw : ∀ y ∈ trail.takeWhile (· != ')'), y ∈ trail :=
        fun y hy => (List.takeWhile_sublist _).subset hy
      have hnc : (trail.takeWhile (· != ')')).count ')' = 0 := by
        rw [List.count_eq_zero]
        intro hmem
        have := List.mem_takeWhile_imp hmem
        simp at this
      have hno : (trail.takeWhile (· != ')')).count '(' = 0 := by
        rw [List.count_eq_zero]
        intro hmem
        exact h4 (htw _ hmem)
      apply ih
      · simp [List.count_append, hnc, ← h1]
      · simp [List.count_append, hno, ← h2]
      · omega
      · intro hmem
        exact h4 ((List.dropWhile_sublist _).subset ((List.tail_sublist _).subset hmem))
    · simp only [rebalanceLoop, if_neg h]
      simpa [← h1, ← h2] using h3

/-- One unit of extra fuel never changes the result once the fuel covers the
trail length. -/
theorem rebalance_fuel_succ (fuel : Nat) :
    ∀ (url trail : List Char) (o c : Nat), trail.length ≤ fuel →
      rebalanceLoop (fuel + 1) url trail o c = rebalanceLoop fuel url trail o c := by
  induction fuel with
  | zero =>
    intro url trail o c hle
    have : trail = [] := List.eq_nil_of_length_eq_zero (Nat.le_zero.mp hle)
    subst this
    simp [rebalanceLoop]
  | succ fuel ih =>
    intro url trail o c hle
    by_cases h : (')' ∈ trail) ∧ c < o
    · have hstep : ((trail.dropWhile (· != ')')).tail).length < trail.length :=
        rebalance_shrinks trail h.1
      conv_lhs => rw [show fuel + 1 + 1 = (fuel + 1) + 1 from rfl]
      simp only [rebalanceLoop, if_pos h]
      exact ih _ _ _ _ (by omega)
    · simp only [rebalanceLoop, if_neg h]

/-- Any fuel at least the trail length gives the same result as exactly the
trail length: the loop terminates within `trail.length` iterations. -/
theorem rebalance_fuel_add (k : Nat) :
    ∀ (url trail : List Char) (o c : Nat),
      rebalanceLoop (trail.length + k) url trail o c =
        rebalanceLoop trail.length url trail o c := by
  induction k with
  | zero => intro url trail o c; rfl
  | succ k ih =>
    intro url trail o c
    rw [show trail.length + (k + 1) = (trail.length + k) + 1 from rfl]
    rw [rebalance_fuel_succ _ _ _ _ _ (Nat.le_add_right _ _), ih]

/-- The labels produced by `splitOnDot` always include at least one label. -/
theorem splitOnDot_ne_nil (d : List Char) : splitOnDot d ≠ [] := by
  cases d with
  | nil => simp [splitOnDot]
  | cons c rest =>
    simp only [splitOnDot]
    cases splitOnDot rest with
    | nil => simp
    | cons h t =>
      by_cases hc : c = '.' <;> simp [hc]

/-- Modelled from the spec (refinement target for `isCorrectDomain`):
"Split on `.`; reject if fewer than 2 labels, any label empty, or either of
the last two labels contains an underscore or contains no alphanumeric
character at all." -/
def specRejectsDomain (d : List Char) : Prop :=
  let parts := splitOnDot d
  let last1 := parts.getD (parts.length - 1) []
  let last2 := parts.getD (parts.length - 2) []
  parts.length < 2 ∨ (∃ p ∈ parts, p = []) ∨
  ('_' ∈ last1 ∨ ∀ c ∈ last1, c.isAlphanum = false) ∨
  ('_' ∈ last2 ∨ ∀ c ∈ last2, c.isAlphanum = false)

/-- Membership bridge for `List.contains` over `Char`. -/
theorem contains_iff_mem (l : List Char) (a : Char) : l.contains a = true ↔ a ∈ l := by
  simp [List.contains, List.elem_iff]

/-- An ASCII letter or digit has a code point in the three alphanumeric
ranges. -/
theorem isAlphanum_toNat (c : Char) (h : c.isAlphanum = true) :
    (65 ≤ c.toNat ∧ c.toNat ≤ 90) ∨ (97 ≤ c.toNat ∧ c.toNat ≤ 122) ∨
    (48 ≤ c.toNat ∧ c.toNat ≤ 57) := by
  simp only [Char.isAlphanum, Char.isAlpha, Char.isDigit, Char.isUpper, Char.isLower,
    Bool.or_eq_true, Bool.and_eq_true, decide_eq_true_eq, ge_iff_le] at h
  have conv1 : ∀ m : Nat, m < UInt32.size → (UInt32.ofNat m ≤ c.val → m ≤ c.toNat) :=
    fun m hm => UInt32.le_toNat_of_le hm
  have conv2 : ∀ m : Nat, m < UInt32.size → (c.val ≤ UInt32.ofNat m → c.toNat ≤ m) :=
    fun m hm => UInt32.toNat_le_of_le hm
  rcases h with (⟨h1, h2⟩ | ⟨h1, h2⟩) | ⟨h1, h2⟩
  · exact Or.inl ⟨conv1 65 (by decide) h1, conv2 90 (by decide) h2⟩
  · exact Or.inr (Or.inl ⟨conv1 97 (by decide) h1, conv2 122 (by decide) h2⟩)
  · exact Or.inr (Or.inr ⟨conv1 48 (by decide) h1, conv2 57 (by decide) h2⟩)

/-- A letter or digit is neither Unicode whitespace nor Unicode punctuation. -/
theorem alphanum_not_ws_punct (c : Char) (h : c.isAlphanum = true) :
    unicodeWhitespace c = false ∧ unicodePunctuation c = false := by
  have hb := isAlphanum_toNat c h
  unfold unicodeWhitespace unicodePunctuation
  constructor <;>
  · simp only [Bool.or_eq_false_iff, Bool.and_eq_false_iff, decide_eq_false_iff_not]
    omega

/-- The boundary predicate fails when the preceding character is a letter or
digit. -/
theorem prev_false_of_alphanum (input : List Char) (index : Nat) (c : Char)
    (hi : 1 ≤ index) (hc : input[index - 1]? = some c) (ha : c.isAlphanum = true) :
    ∀ email, previous input index email = false := by
  intro email
  have hwp := alphanum_not_ws_punct c ha
  have hz : ¬ index = 0 := by omega
  simp only [previous, if_neg hz, hc]
  simp [hwp.1, hwp.2, hz]

end Autolink

namespace Autolink

/-- C1: every user or community mention match accepted by a mention handler
(boundary check with slash-forbidding passes, and the server capture does
not end in a dash, a digit, or an underscore) produces a link whose URL is
`https://{connectedInstance}/u/{name}@{server}` (user) or
`https://{connectedInstance}/c/{name}@{server}` (community), and whose
display text is the original prefix + name + `@` + server verbatim; in
particular `"@alice@instance.tld"` with connected instance `"lemmy.world"`
yields one link with URL `https://lemmy.world/u/alice@instance.tld` and
display text `@alice@instance.tld`. -/
theorem mention_handler_links :
    (∀ (inst pre atext label input : List Char) (i : Nat),
      previous input i true = true → endsBad label = false →
      findUser inst pre atext label input i = FindResult.node (Node.link
        (("https://".toList) ++ inst ++ ("/u/".toList) ++
          atext.drop pre.length ++ '@' :: label)
        none [Node.text (pre ++ atext.drop pre.length ++ '@' :: label)])) ∧
    (∀ (inst pre atext label input : List Char) (i : Nat),
      previous input i true = true → endsBad label = false →
      findCommunity inst pre atext label input i = FindResult.node (Node.link
        (("https://".toList) ++ inst ++ ("/c/".toList) ++
          atext.drop pre.length ++ '@' :: label)
        none [Node.text (pre ++ atext.drop pre.length ++ '@' :: label)])) ∧
    findUser ("lemmy.world".toList) ("@".toList) ("@alice".toList)
        ("instance.tld".toList) ("@alice@instance.tld".toList) 0 =
      FindResult.node (Node.link ("https://lemmy.world/u/alice@instance.tld".toList)
        none [Node.text ("@alice@instance.tld".toList)]) := by
  refine ⟨?_, ?_, rfl⟩ <;>
  · intro inst pre atext label input i h1 h2
    simp [findUser, findCommunity, h1, h2]

/-- C1 witness: the user-mention handler at a concrete accepted match. -/
theorem mention_handler_links_wit :
    findUser ("lemmy.world".toList) ("/u/".toList) ("/u/bob".toList)
        ("example.org".toList) (" /u/bob@example.org".toList) 1 =
      FindResult.node (Node.link
        (("https://".toList) ++ ("lemmy.world".toList) ++ ("/u/".toList) ++
          (("/u/bob".toList).drop ("/u/".toList).length) ++ '@' :: ("example.org".toList))
        none [Node.text (("/u/".toList) ++
          (("/u/bob".toList).drop ("/u/".toList).length) ++ '@' :: ("example.org".toList))]) :=
  mention_handler_links.1 ("lemmy.world".toList) ("/u/".toList) ("/u/bob".toList)
    ("example.org".toList) (" /u/bob@example.org".toList) 1 (by decide) (by decide)

/-- C2: the pattern table tries the community shebang pattern before the
generic email pattern; on `"!community@instance.org"` at a valid start the
community handler produces a `/c/` link on the connected instance while the
email handler yields no match for the suffix span; and the email handler
returns no match whenever the character immediately preceding its whole
match is `!` or `@`. -/
theorem community_not_email :
    patternTable.findIdx (· == PatternKind.communityShebang) <
      patternTable.findIdx (· == PatternKind.email) ∧
    (∀ inst : List Char,
      findCommunity inst ("!".toList) ("!community".toList) ("instance.org".toList)
          ("!community@instance.org".toList) 0 =
        FindResult.node (Node.link
          (("https://".toList) ++ inst ++ ("/c/".toList) ++ ("community".toList) ++
            '@' :: ("instance.org".toList)) none
          [Node.text ("!community@instance.org".toList)])) ∧
    findEmail ("community".toList) ("instance.org".toList)
        ("!community@instance.org".toList) 1 = FindResult.noMatch ∧
    (∀ (atext label input : List Char) (i : Nat), 1 ≤ i →
      (input[i - 1]? = some '!' ∨ input[i - 1]? = some '@') →
      findEmail atext label input i = FindResult.noMatch) := by
  refine ⟨by decide, ?_, rfl, ?_⟩
  · intro inst
    simp [findCommunity]
    exact ⟨rfl, rfl⟩
  intro atext label input i hi hcode
  have hz : ¬ i = 0 := by omega
  by_cases hA : (!(previous input i true) || endsBad label) = true
  · simp [findEmail, hA]
  · simp only [findEmail, hA, Bool.false_eq_true, if_false]
    rcases hcode with h | h <;> simp [if_neg hz, h]

/-- C2 witness: the email handler rejects a span preceded by `@`. -/
theorem community_not_email_wit :
    findEmail ("b".toList) ("c.org".toList) ("@a@b@c.org".toList) 3 =
      FindResult.noMatch :=
  community_not_email.2.2.2 ("b".toList) ("c.org".toList) ("@a@b@c.org".toList) 3
    (by decide) (Or.inr (by decide))

end Autolink

namespace Autolink

/-- C3: `isCorrectDomain(d)` returns false iff splitting `d` on `.` gives
fewer than 2 labels, or some label is empty, or either of the last two
labels contains an underscore or contains no alphanumeric character;
otherwise it returns true. -/
theorem isCorrectDomain_spec (d : List Char) :
    isCorrectDomain d = false ↔ specRejectsDomain d := by
  have hne := splitOnDot_ne_nil d
  have hlenpos : 0 < (splitOnDot d).length := List.length_pos.mpr hne
  simp only [isCorrectDomain, specRejectsDomain]
  set parts := splitOnDot d with hparts
  set last1 := parts.getD (parts.length - 1) [] with hl1
  set last2 := parts.getD (parts.length - 2) [] with hl2
  have hmem1 : last1 ∈ parts := by
    rw [hl1, List.getD_eq_getElem?_getD, List.getElem?_eq_getElem (by omega)]
    exact List.getElem_mem _
  have hmem2 : last2 ∈ parts := by
    rw [hl2, List.getD_eq_getElem?_getD, List.getElem?_eq_getElem (by omega)]
    exact List.getElem_mem _
  simp only [Bool.not_eq_false', Bool.or_eq_true, decide_eq_true_eq, List.any_eq_true,
    Bool.and_eq_true, Bool.not_eq_true', List.isEmpty_eq_true, List.isEmpty_eq_false,
    List.any_eq_false, contains_iff_mem, Bool.not_eq_true]
  constructor
  · rintro (((h | h) | h) | h)
    · exact Or.inl h
    · exact Or.inr (Or.inl h)
    · exact Or.inr (Or.inr (Or.inl (h.2.imp id fun ha c hc => ha c hc)))
    · exact Or.inr (Or.inr (Or.inr (h.2.imp id fun ha c hc => ha c hc)))
  · rintro (h | h | h | h)
    · exact Or.inl (Or.inl (Or.inl h))
    · exact Or.inl (Or.inl (Or.inr h))
    · by_cases hemp : last1 = []
      · exact Or.inl (Or.inl (Or.inr ⟨last1, hmem1, hemp⟩))
      · exact Or.inl (Or.inr ⟨hemp, h.imp id fun ha c hc => ha c hc⟩)
    · by_cases hemp : last2 = []
      · exact Or.inl (Or.inl (Or.inr ⟨last2, hmem2, hemp⟩))
      · exact Or.inr ⟨hemp, h.imp id fun ha c hc => ha c hc⟩

/-- C3 witness: the domain `a..b` has an empty label and is rejected. -/
theorem isCorrectDomain_spec_wit : isCorrectDomain ("a..b".toList) = false :=
  (isCorrectDomain_spec ("a..b".toList)).mpr
    (by simp only [specRejectsDomain]; decide)

/-- C4: for every string `s`, concatenating the kept part of `splitUrl s`
with the trimmed part (or the empty string when the trimmed part is
absent) reconstructs `s` exactly, and every character of the trimmed part
belongs to the closing-punctuation set. -/
theorem splitUrl_reconstruct (s : List Char) :
    (splitUrl s).1 ++ ((splitUrl s).2.getD []) = s ∧
    ∀ x ∈ (splitUrl s).2.getD [], trailingPunct x = true := by
  unfold splitUrl
  by_cases hE : (s.reverse.takeWhile trailingPunct).isEmpty
  · simp [hE]
  · simp only [hE, Bool.false_eq_true, if_false, Option.getD_some]
    constructor
    · rw [rebalance_append]
      rw [← List.reverse_append, List.takeWhile_append_dropWhile, List.reverse_reverse]
    · intro x hx
      have hx2 := rebalance_trail_mem _ _ _ _ _ _ hx
      rw [List.mem_reverse] at hx2
      exact List.mem_takeWhile_imp hx2

/-- C4 witness: reconstruction and punctuation membership at `a(b)).`. -/
theorem splitUrl_reconstruct_wit :
    (splitUrl ("a(b)).".toList)).1 ++ ((splitUrl ("a(b)).".toList)).2.getD []) =
      ("a(b)).".toList) ∧ trailingPunct '.' = true :=
  ⟨(splitUrl_reconstruct ("a(b)).".toList)).1,
   (splitUrl_reconstruct ("a(b)).".toList)).2 '.' (by decide)⟩

/-- C5 counterexample: on `")a"` (whose `)` is not in a trailing
punctuation run) the kept part of `splitUrl` contains more `)` than `(`,
refuting the claim that the kept component never shows more closing than
opening parentheses. -/
theorem splitUrl_balance_cex :
    (splitUrl (")a".toList)).1.count '(' < (splitUrl (")a".toList)).1.count ')' := by
  decide

/-- C5 (amended): if the part of `s` left after removing the trailing
punctuation run contains no more `)` than `(`, then the kept component of
`splitUrl s` contains no more `)` than `(` once trimming completes: the
rebalancing loop moves a `)` back only while `(` are in strict excess. -/
theorem splitUrl_balance (s : List Char)
    (h : (preKept s).count ')' ≤ (preKept s).count '(') :
    (splitUrl s).1.count ')' ≤ (splitUrl s).1.count '(' := by
  unfold splitUrl
  by_cases hE : (s.reverse.takeWhile trailingPunct).isEmpty
  · simp only [hE, if_true]
    have hdw : s.reverse.dropWhile trailingPunct = s.reverse := by
      cases hrev : s.reverse with
      | nil => simp
      | cons x xs =>
        rw [hrev, List.takeWhile_cons] at hE
        by_cases hpx : trailingPunct x
        · rw [if_pos hpx] at hE
          simp at hE
        · rw [List.dropWhile_cons, if_neg hpx]
    have hpre : preKept s = s := by
      unfold preKept
      rw [hdw, List.reverse_reverse]
    rw [hpre] at h
    exact h
  · simp only [hE, Bool.false_eq_true, if_false]
    apply rebalance_counts
    · rfl
    · rfl
    · exact h
    · intro hmem
      rw [List.mem_reverse] at hmem
      have := List.mem_takeWhile_imp hmem
      simp [trailingPunct] at this

/-- C5 witness: the amended balance property at `(x))`. -/
theorem splitUrl_balance_wit :
    (preKept ("(x))".toList)).count ')' ≤ (preKept ("(x))".toList)).count '(' ∧
    (splitUrl ("(x))".toList)).1.count ')' ≤ (splitUrl ("(x))".toList)).1.count '(' :=
  ⟨by decide, splitUrl_balance ("(x))".toList) (by decide)⟩

end Autolink

namespace Autolink

/-- C6: in `findUrl`, in the `www` form (no real protocol, match starting
with `w`/`W`) the matched prefix is folded into the domain, the produced
link's URL is `http://` followed by the kept portion, and the display text
is the kept portion without any scheme; when a protocol is captured, both
URL and display text start with that protocol. -/
theorem findUrl_scheme (protocol domain path input : List Char) (i : Nat) :
    (startsWithW protocol = true →
      ∀ n, linkOf (findUrl protocol domain path input i) = some n →
        n = Node.link (("http://".toList) ++ (splitUrl ((protocol ++ domain) ++ path)).1)
          none [Node.text ((splitUrl ((protocol ++ domain) ++ path)).1)]) ∧
    (startsWithW protocol = false →
      ∀ n, linkOf (findUrl protocol domain path input i) = some n →
        n = Node.link (protocol ++ (splitUrl (domain ++ path)).1)
          none [Node.text (protocol ++ (splitUrl (domain ++ path)).1)]) := by
  constructor <;>
  · intro hw n h
    simp only [findUrl, hw] at h
    simp only [if_true, if_false, Bool.false_eq_true, Bool.true_eq_false] at h
    split at h
    · simp [linkOf] at h
    · split at h
      · simp [linkOf] at h
      · split at h
        · simp [linkOf] at h
        · split at h
          · split at h <;> simp_all [linkOf]
          · simp_all [linkOf]

/-- C6 witness: the `www` form at a concrete input. -/
theorem findUrl_scheme_wit :
    Node.link ("http://www.example.com".toList) none
        [Node.text ("www.example.com".toList)] =
      Node.link
        (("http://".toList) ++
          (splitUrl ((("www".toList) ++ (".example.com".toList)) ++ ([] : List Char))).1)
        none
        [Node.text
          ((splitUrl ((("www".toList) ++ (".example.com".toList)) ++ ([] : List Char))).1)] :=
  (findUrl_scheme ("www".toList) (".example.com".toList) [] ("www.example.com".toList) 0).1
    rfl
    (Node.link ("http://www.example.com".toList) none [Node.text ("www.example.com".toList)])
    rfl

/-- C7: a candidate match whose immediately preceding character is a letter
or digit is never converted to a link by any handler (each returns no
match), and the boundary predicate returns true only at index 0 or when the
preceding character is Unicode whitespace or punctuation — additionally not
`/` when the slash-forbidding flag is set. -/
theorem boundary_reject :
    (∀ (input : List Char) (i : Nat) (c : Char), 1 ≤ i → input[i - 1]? = some c →
      c.isAlphanum = true →
      (∀ email, previous input i email = false) ∧
      (∀ protocol domain path, findUrl protocol domain path input i = FindResult.noMatch) ∧
      (∀ inst pre atext label, findCommunity inst pre atext label input i = FindResult.noMatch) ∧
      (∀ inst pre atext label, findUser inst pre atext label input i = FindResult.noMatch) ∧
      (∀ atext label, findEmail atext label input i = FindResult.noMatch)) ∧
    (∀ (input : List Char) (i : Nat) (email : Bool), previous input i email = true →
      i = 0 ∨ ∃ c, input[i - 1]? = some c ∧
        (unicodeWhitespace c = true ∨ unicodePunctuation c = true) ∧
        (email = true → c ≠ '/')) := by
  constructor
  · intro input i c hi hc ha
    have hp := prev_false_of_alphanum input i c hi hc ha
    refine ⟨hp, ?_, ?_, ?_, ?_⟩
    · intro protocol domain path
      simp [findUrl, hp false]
    · intro inst pre atext label
      simp [findCommunity, hp true]
    · intro inst pre atext label
      simp [findUser, hp true]
    · intro atext label
      simp [findEmail, hp true]
  · intro input i email h
    unfold previous at h
    by_cases hz : i = 0
    · exact Or.inl hz
    · right
      simp only [hz, if_false, Bool.and_eq_true, Bool.or_eq_true, beq_iff_eq,
        decide_eq_true_eq] at h
      rcases h with ⟨h1, h2⟩
      rcases h1 with h1 | h1
      · simp [hz] at h1
      · cases hc : input[i - 1]? with
        | none => rw [hc] at h1; simp at h1
        | some c =>
          rw [hc] at h1 h2
          refine ⟨c, rfl, by simpa using h1, ?_⟩
          intro he hslash
          subst hslash
          rw [he] at h2
          simp at h2

/-- C7 witness: after the letter `x`, the boundary predicate fails and the
email handler rejects. -/
theorem boundary_reject_wit :
    previous ("xhttp".toList) 1 false = false ∧
    findEmail ("h".toList) ("t.tp".toList) ("xhttp".toList) 1 = FindResult.noMatch := by
  have h := boundary_reject.1 ("xhttp".toList) 1 'x' (by decide) (by decide) (by decide)
  exact ⟨h.1 false, h.2.2.2.2 ("h".toList) ("t.tp".toList)⟩

/-- C8: `splitUrl` terminates for every input: each iteration of the
parenthesis-rebalancing loop strictly shrinks the trimmed remainder, and
the loop finishes within `trail.length` iterations — giving it any extra
fuel beyond the trail length never changes the result. -/
theorem splitUrl_terminates :
    (∀ trail : List Char, ')' ∈ trail →
      ((trail.dropWhile (· != ')')).tail).length < trail.length) ∧
    (∀ (k : Nat) (url trail : List Char) (o c : Nat),
      rebalanceLoop (trail.length + k) url trail o c =
        rebalanceLoop trail.length url trail o c) :=
  ⟨rebalance_shrinks, fun k url trail o c => rebalance_fuel_add k url trail o c⟩

/-- C8 witness: the strict shrink at the one-character trail `)`. -/
theorem splitUrl_terminates_wit :
    (((")".toList).dropWhile (· != ')')).tail).length < (")".toList).length :=
  splitUrl_terminates.1 (")".toList) (by decide)

end Autolink

namespace Autolink

/-- Interpretation of the lookbehind class of the `@` rule. -/
theorem class_before_at (c : Char) :
    regexClassMatch "[+\\-.\\w]" c = true ↔
      (c = '+' ∨ c = '-' ∨ c = '.' ∨ c.isAlphanum = true ∨ c = '_') := by
  show classItemsMatch ['+', '\\', '-', '.', '\\', 'w'] c = true ↔ _
  simp [classItemsMatch, wordChar]

/-- Interpretation of the lookahead class of the `@` and `.` rules. -/
theorem class_after_at (c : Char) :
    regexClassMatch "[\\-.\\w]" c = true ↔
      (c = '-' ∨ c = '.' ∨ c.isAlphanum = true ∨ c = '_') := by
  show classItemsMatch ['\\', '-', '.', '\\', 'w'] c = true ↔ _
  simp [classItemsMatch, wordChar]

/-- Interpretation of the lookbehind class of the `.` rule. -/
theorem class_before_dot (c : Char) :
    regexClassMatch "[Ww]" c = true ↔ (c = 'W' ∨ c = 'w') := by
  show classItemsMatch ['W', 'w'] c = true ↔ _
  simp [classItemsMatch]

/-- Interpretation of the lookbehind class of the `:` rule. -/
theorem class_before_colon (c : Char) :
    regexClassMatch "[ps]" c = true ↔ (c = 'p' ∨ c = 's') := by
  show classItemsMatch ['p', 's'] c = true ↔ _
  simp [classItemsMatch]

/-- Interpretation of the lookahead pattern of the `:` rule. -/
theorem class_after_colon (c : Char) :
    regexClassMatch "\\/" c = true ↔ c = '/' := by
  show classItemsMatch ['\\', '/'] c = true ↔ _
  simp [classItemsMatch]

/-- C9: the serialization extension declares exactly three escape rules,
each applying in phrasing content but not inside autolink, link, image, or
label constructs: `@` escaped between a `[+\-.\w]` character and a
`[\-.\w]` character; `.` escaped between `w`/`W` and a `[\-.\w]`
character; `:` escaped between `p`/`s` and `/`. -/
theorem escape_rules :
    gfmAutolinkLiteralToMarkdown.length = 3 ∧
    (∀ r ∈ gfmAutolinkLiteralToMarkdown,
      r.inConstruct = "phrasing" ∧
      r.notInConstruct = ["autolink", "link", "image", "label"]) ∧
    gfmAutolinkLiteralToMarkdown.map EscapeRule.character = ['@', '.', ':'] ∧
    (∀ c : Char,
      (regexClassMatch ((gfmAutolinkLiteralToMarkdown.get ⟨0, by decide⟩).before) c = true ↔
        (c = '+' ∨ c = '-' ∨ c = '.' ∨ c.isAlphanum = true ∨ c = '_')) ∧
      (regexClassMatch ((gfmAutolinkLiteralToMarkdown.get ⟨0, by decide⟩).after) c = true ↔
        (c = '-' ∨ c = '.' ∨ c.isAlphanum = true ∨ c = '_')) ∧
      (regexClassMatch ((gfmAutolinkLiteralToMarkdown.get ⟨1, by decide⟩).before) c = true ↔
        (c = 'W' ∨ c = 'w')) ∧
      (regexClassMatch ((gfmAutolinkLiteralToMarkdown.get ⟨1, by decide⟩).after) c = true ↔
        (c = '-' ∨ c = '.' ∨ c.isAlphanum = true ∨ c = '_')) ∧
      (regexClassMatch ((gfmAutolinkLiteralToMarkdown.get ⟨2, by decide⟩).before) c = true ↔
        (c = 'p' ∨ c = 's')) ∧
      (regexClassMatch ((gfmAutolinkLiteralToMarkdown.get ⟨2, by decide⟩).after) c = true ↔
        c = '/')) := by
  refine ⟨rfl, by decide, rfl, ?_⟩
  intro c
  exact ⟨class_before_at c, class_after_at c, class_before_dot c, class_after_at c,
    class_before_colon c, class_after_colon c⟩

/-- C9 witness: the `@` rule fires after a `+` and the `:` rule before `/`. -/
theorem escape_rules_wit :
    regexClassMatch ((gfmAutolinkLiteralToMarkdown.get ⟨0, by decide⟩).before) '+' = true ∧
    regexClassMatch ((gfmAutolinkLiteralToMarkdown.get ⟨2, by decide⟩).after) '/' = true :=
  ⟨((escape_rules.2.2.2 '+').1).mpr (Or.inl rfl),
   ((escape_rules.2.2.2 '/').2.2.2.2.2).mpr rfl⟩

/-- Exhaustive description of the results `findUrl` can produce: no match,
a lone link, or a link followed by a nonempty text node. -/
theorem findUrl_cases (protocol domain path input : List Char) (i : Nat) :
    findUrl protocol domain path input i = FindResult.noMatch ∨
    (∃ n, findUrl protocol domain path input i = FindResult.node n) ∨
    (∃ n t, t ≠ [] ∧
      findUrl protocol domain path input i = FindResult.nodes [n, Node.text t]) := by
  simp only [findUrl]
  split
  · exact Or.inl rfl
  · split
    · split
      · exact Or.inl rfl
      · split
        · exact Or.inl rfl
        · split
          · rename_i t heq
            split
            · rename_i ht
              exact Or.inr (Or.inr ⟨_, t, by simpa using ht, rfl⟩)
            · exact Or.inr (Or.inl ⟨_, rfl⟩)
          · exact Or.inr (Or.inl ⟨_, rfl⟩)
    · split
      · exact Or.inl rfl
      · split
        · exact Or.inl rfl
        · split
          · rename_i t heq
            split
            · rename_i ht
              exact Or.inr (Or.inr ⟨_, t, by simpa using ht, rfl⟩)
            · exact Or.inr (Or.inl ⟨_, rfl⟩)
          · exact Or.inr (Or.inl ⟨_, rfl⟩)

/-- C10: when the trailing punctuation run is entirely moved back into the
kept part by parenthesis balancing, `splitUrl` returns the trimmed
component as the empty string rather than as absent, and `findUrl` treats
an empty-string trimmed component the same as an absent one: it never
emits an empty trailing text node as a sibling of the link. -/
theorem empty_trail_suppressed :
    splitUrl ("(a)".toList) = (("(a)".toList), some []) ∧
    (∀ (protocol domain path input : List Char) (i : Nat) (ns : List Node),
      findUrl protocol domain path input i = FindResult.nodes ns →
      ∃ n t, ns = [n, Node.text t] ∧ t ≠ []) ∧
    findUrl ("http://".toList) ("example.org".toList) ("/x(y)".toList)
        ("http://example.org/x(y)".toList) 0 =
      FindResult.node (Node.link ("http://example.org/x(y)".toList) none
        [Node.text ("http://example.org/x(y)".toList)]) := by
  refine ⟨by decide, ?_, rfl⟩
  intro protocol domain path input i ns h
  rcases findUrl_cases protocol domain path input i with hc | ⟨n, hc⟩ | ⟨n, t, ht, hc⟩ <;>
    rw [h] at hc
  · simp at hc
  · simp at hc
  · exact ⟨n, t, FindResult.nodes.inj hc, ht⟩

/-- C10 witness: a trailing `).` run that survives trimming is emitted as a
nonempty text sibling. -/
theorem empty_trail_suppressed_wit :
    ∃ n t,
      ([Node.link ("http://example.org".toList) none
          [Node.text ("http://example.org".toList)],
        Node.text (").".toList)] : List Node) = [n, Node.text t] ∧ t ≠ [] :=
  empty_trail_suppressed.2.1 ("http://".toList) ("example.org".toList) (").".toList)
    ("http://example.org).".toList) 0
    [Node.link ("http://example.org".toList) none [Node.text ("http://example.org".toList)],
     Node.text (").".toList)] rfl

end Autolink
